import Mathlib

/-!
Verification of the syslog stream-framing and message-reassembly core of the
checkmk event console (`cmk/ec/helpers.py`), together with the per-source
reassembly loop it feeds.

Bytes are modelled as natural numbers (each < 256 in practice; nothing below
depends on the bound), a byte window (`memoryview`) as a `List Nat`, and the
Python parse result `tuple[T | None, Tokens]` as `Option T × List Nat` with
`none` standing for the `Failure` sentinel.
-/

namespace Checkmk

/-- Byte window: the Python `memoryview` stream of byte tokens. -/
abbrev Tokens := List Nat

/-- Result of a parser: the parsed value (or the `Failure` sentinel `none`)
paired with the still unparsed tokens. -/
abbrev ParseResult (α : Type) := Option α × Tokens

/-- Embedding of `parse_bytes(length, tokens)`: take the first `length` bytes;
fail (window unchanged) when fewer are available. -/
def parse_bytes (length : Nat) (tokens : Tokens) : ParseResult (List Nat) :=
  let msg := tokens.take length
  if msg.length ≠ length then (none, tokens) else (some msg, tokens.drop length)

/-- Embedding of `parse_one_of(expected, tokens)`: one byte, which must be a
member of `expected`; the value is the one-byte string, as in the source. -/
def parse_one_of (expected : List Nat) (tokens : Tokens) : ParseResult (List Nat) :=
  match parse_bytes 1 tokens with
  | (some byte, rest) =>
      if byte.all (fun b => b ∈ expected) then (some byte, rest) else (none, tokens)
  | (none, _) => (none, tokens)

/-- Byte values of the Python literal `b"0123456789"`. -/
def DIGITS : List Nat := [48, 49, 50, 51, 52, 53, 54, 55, 56, 57]

/-- Byte values of the Python literal `b"123456789"`. -/
def NONZERO_DIGITS : List Nat := [49, 50, 51, 52, 53, 54, 55, 56, 57]

/-- Embedding of `parse_digit(tokens)`. -/
def parse_digit (tokens : Tokens) : ParseResult (List Nat) :=
  parse_one_of DIGITS tokens

/-- Fuel-indexed unrolling of the `while True` loop of `zero_or_more`.  The
loop keeps applying `p` and collects the successes; it stops, returning the
collected list, at the first failure of `p`.  `none` is returned only when the
fuel runs out, which never happens at the fuel used by `zero_or_more` for a
parser that strictly consumes on every success (proved below). -/
def zero_or_more_fuel {α : Type} (p : Tokens → ParseResult α) :
    Nat → Tokens → ParseResult (List α)
  | 0, tokens => (none, tokens)
  | fuel + 1, tokens =>
    match p tokens with
    | (none, rest) => (some [], rest)
    | (some value, rest) =>
      match zero_or_more_fuel p fuel rest with
      | (some values, rest2) => (some (value :: values), rest2)
      | (none, rest2) => (none, rest2)

/-- Embedding of `zero_or_more(parser, tokens)`.  One byte is consumed per
success by every parser used in the source, so `tokens.length + 1` rounds of
the loop always suffice. -/
def zero_or_more {α : Type} (p : Tokens → ParseResult α) (tokens : Tokens) :
    ParseResult (List α) :=
  zero_or_more_fuel p (tokens.length + 1) tokens

/-- Embedding of `int(...)` applied to a run of ASCII digit bytes, most
significant first, as produced by `b"".join([digit] + digits)`. -/
def decimalValue (ds : List Nat) : Nat :=
  ds.foldl (fun acc d => 10 * acc + (d - 48)) 0

/-- Embedding of `parse_msg_len(tokens)`: one digit from `b"123456789"`, then
zero or more digits, then one byte from `b" "`; the value is the decimal
integer of the joined digit bytes.  Every failure returns the original
window. -/
def parse_msg_len (tokens : Tokens) : ParseResult Nat :=
  match parse_one_of NONZERO_DIGITS tokens with
  | (none, _) => (none, tokens)
  | (some digit, rest1) =>
    match zero_or_more parse_digit rest1 with
    | (none, _) => (none, tokens)
    | (some digits, rest2) =>
      match parse_one_of [32] rest2 with
      | (none, _) => (none, tokens)
      | (some _, rest3) => (some (decimalValue (digit :: digits).flatten), rest3)

/-- Embedding of `parse_non_transparent_frame(tokens)`: scan for the first
newline byte (10); return the bytes strictly before it and the window after
it, or fail with the original window when no newline occurs. -/
def parse_non_transparent_frame : Tokens → ParseResult (List Nat)
  | [] => (none, [])
  | b :: rest =>
    if b = 10 then (some [], rest)
    else
      match parse_non_transparent_frame rest with
      | (some msg, r) => (some (b :: msg), r)
      | (none, _) => (none, b :: rest)

/-- Embedding of `parse_syslog_message(tokens)`: try octet-counting framing
first; when no length prefix matches, fall back to non-transparent framing;
when the prefix matches but the counted bytes are not yet available, fail
with the entire original window. -/
def parse_syslog_message (tokens : Tokens) : ParseResult (List Nat) :=
  match parse_msg_len tokens with
  | (none, _) => parse_non_transparent_frame tokens
  | (some msg_len, rest1) =>
    match parse_bytes msg_len rest1 with
    | (none, _) => (none, tokens)
    | (some msg, rest2) => (some msg, rest2)

/-- Little-endian decimal digit values of `n` (fuel-indexed; `fuel ≥ n`
suffices).  Computable counterpart of `Nat.digits 10`. -/
def decDigitsAux : Nat → Nat → List Nat
  | 0, _ => []
  | fuel + 1, n => if n = 0 then [] else n % 10 :: decDigitsAux fuel (n / 10)

/-- ASCII decimal rendering of `n`, most significant digit first, no leading
zeros (`asciiDecimal 0 = []`).  This follows the wording of the byte
conservation claim: "the ASCII decimal rendering of len(msg)". -/
def asciiDecimal (n : Nat) : List Nat :=
  ((decDigitsAux n n).map (fun d => d + 48)).reverse

/-- Modelled from the spec: the decode loop of the per-source reassembly
layer (`EventServer.process_syslog_data`, not part of the excerpted source):
"apply `decodeOneMessage` to the current buffer.  On success, dispatch the
decoded message (in order) and replace the buffer with the returned
remainder; repeat.  On failure, stop the loop."  Fuel-indexed unrolling;
`buffer.length` rounds always suffice because every successful parse consumes
at least one byte (proved below). -/
def drainFuel : Nat → Tokens → List (List Nat) × Tokens
  | 0, buffer => ([], buffer)
  | fuel + 1, buffer =>
    match parse_syslog_message buffer with
    | (some msg, rest) =>
      let r := drainFuel fuel rest
      (msg :: r.1, r.2)
    | (none, _) => ([], buffer)

/-- Modelled from the spec: repeatedly decode messages from `buffer` until the
dispatcher fails; returns the dispatched messages in order and the leftover. -/
def drain (buffer : Tokens) : List (List Nat) × Tokens :=
  drainFuel buffer.length buffer

/-- Modelled from the spec: `ingest(sourceKey, newBytes)` for one source key:
append the chunk to the pending buffer, decode maximally, return the
dispatched messages in order together with the new pending buffer. -/
def ingest (buffer chunk : Tokens) : List (List Nat) × Tokens :=
  drain (buffer ++ chunk)

/-- Modelled from the spec: feed a list of chunks one at a time to `ingest`
for one source key, accumulating the dispatched messages in order; the start
state is the already dispatched messages and the pending buffer. -/
def ingestAll (st : List (List Nat) × Tokens) (chunks : List Tokens) :
    List (List Nat) × Tokens :=
  chunks.foldl (fun acc chunk =>
    let r := ingest acc.2 chunk
    (acc.1 ++ r.1, r.2)) st

/-- Observable lock actions of `ECLock` (the debug log lines are omitted;
they carry no lock state). -/
inductive LockEvent where
  | acquire
  | release
deriving DecidableEq, Repr

/-- Embedding of `ECLock.__enter__`: unconditionally acquire. -/
def eclock_enter : List LockEvent := [LockEvent.acquire]

/-- Embedding of `ECLock.__exit__`: release the lock and return `False`
("do not swallow exceptions"), whatever exception information is passed. -/
def eclock_exit {ε : Type} (_excInfo : Option ε) : List LockEvent × Bool :=
  ([LockEvent.release], false)

/-- Python `with ECLock(...):` semantics around a guarded body that either
returns a value or raises: run `__enter__`, the body, then `__exit__` with
the body's exception (if any); a `true` result of `__exit__` would suppress
the exception (the block then evaluates to no value).  Returns the emitted
lock events and the outcome of the whole statement. -/
def eclock_with {ε α : Type} (body : Except ε α) :
    List LockEvent × Except ε (Option α) :=
  match body with
  | Except.ok a =>
      let e := eclock_exit (none : Option ε)
      (eclock_enter ++ e.1, Except.ok (some a))
  | Except.error ex =>
      let e := eclock_exit (some ex)
      (eclock_enter ++ e.1,
        if e.2 then Except.ok none else Except.error ex)

/-- ASCII bytes of a string literal, used for concrete inputs. -/
def strBytes (s : String) : Tokens :=
  s.toList.map Char.toNat

/-- Concrete chunk from the unit tests: `b"45 May 26 ... octet message\n"`. -/
def octet45 : Tokens :=
  strBytes "45 May 26 13:45:01 Klapprechner CRON[8046]: octet message\n"

/-- Successive successes of a parser: `Runs p w vs r` holds when repeatedly
applying `p` starting from `w` yields exactly the values `vs` in order, the
final failing application of `p` returning the window `r`. -/
inductive Runs {α : Type} (p : Tokens → ParseResult α) : Tokens → List α → Tokens → Prop where
  | stop : ∀ w r, p w = (none, r) → Runs p w [] r
  | step : ∀ w v w1 vs r, p w = (some v, w1) → Runs p w1 vs r → Runs p w (v :: vs) r

/-! ## Basic lemmas about the primitive parsers -/

theorem parse_bytes_of_le {n : Nat} {w : Tokens} (h : n ≤ w.length) :
    parse_bytes n w = (some (w.take n), w.drop n) := by
  simp [parse_bytes, List.length_take, Nat.min_eq_left h]

theorem parse_bytes_of_gt {n : Nat} {w : Tokens} (h : w.length < n) :
    parse_bytes n w = (none, w) := by
  have hlen : (w.take n).length = w.length := by
    simp [List.length_take]; omega
  simp [parse_bytes, hlen]
  omega

theorem parse_bytes_fail {n : Nat} {w : Tokens} (h : (parse_bytes n w).1 = none) :
    (parse_bytes n w).2 = w := by
  rcases Nat.lt_or_ge w.length n with hlt | hle
  · rw [parse_bytes_of_gt hlt]
  · rw [parse_bytes_of_le hle] at h ⊢
    simp at h

theorem parse_one_of_nil (e : List Nat) : parse_one_of e [] = (none, []) := rfl

theorem parse_one_of_cons_mem {b : Nat} {e : List Nat} (h : b ∈ e) (w : Tokens) :
    parse_one_of e (b :: w) = (some [b], w) := by
  simp [parse_one_of, parse_bytes, h]

theorem parse_one_of_cons_not_mem {b : Nat} {e : List Nat} (h : b ∉ e) (w : Tokens) :
    parse_one_of e (b :: w) = (none, b :: w) := by
  simp [parse_one_of, parse_bytes, h]

theorem parse_one_of_success {e : List Nat} {w : Tokens} {v : List Nat} {r : Tokens}
    (h : parse_one_of e w = (some v, r)) :
    ∃ b, w = b :: r ∧ v = [b] ∧ b ∈ e := by
  cases w with
  | nil => simp [parse_one_of_nil] at h
  | cons b w1 =>
    by_cases hb : b ∈ e
    · rw [parse_one_of_cons_mem hb] at h
      refine ⟨b, ?_, ?_, hb⟩ <;> cases h <;> rfl
    · rw [parse_one_of_cons_not_mem hb] at h
      simp at h

theorem parse_one_of_fail {e : List Nat} {w : Tokens}
    (h : (parse_one_of e w).1 = none) : (parse_one_of e w).2 = w := by
  cases w with
  | nil => rfl
  | cons b w1 =>
    by_cases hb : b ∈ e
    · rw [parse_one_of_cons_mem hb] at h ⊢
      simp at h
    · rw [parse_one_of_cons_not_mem hb]

theorem parse_digit_consumes (t : Tokens) (v : List Nat) (r : Tokens)
    (h : parse_digit t = (some v, r)) : r.length < t.length := by
  obtain ⟨b, rfl, -, -⟩ := parse_one_of_success h
  simp

/-! ## Digit sets -/

theorem mem_DIGITS_bounds {x : Nat} (h : x ∈ DIGITS) : 48 ≤ x ∧ x ≤ 57 := by
  simp [DIGITS] at h
  rcases h with rfl | rfl | rfl | rfl | rfl | rfl | rfl | rfl | rfl | rfl <;> omega

theorem mem_NONZERO_DIGITS_bounds {x : Nat} (h : x ∈ NONZERO_DIGITS) : 49 ≤ x ∧ x ≤ 57 := by
  simp [NONZERO_DIGITS] at h
  rcases h with rfl | rfl | rfl | rfl | rfl | rfl | rfl | rfl | rfl <;> omega

theorem mem_DIGITS_of_mem_NONZERO_DIGITS {x : Nat} (h : x ∈ NONZERO_DIGITS) : x ∈ DIGITS := by
  simp [NONZERO_DIGITS] at h
  rcases h with rfl | rfl | rfl | rfl | rfl | rfl | rfl | rfl | rfl <;> simp [DIGITS]

/-! ## Lemmas about zero_or_more -/

theorem zero_or_more_fuel_of_consuming {α : Type} (p : Tokens → ParseResult α)
    (hp : ∀ t v r, p t = (some v, r) → r.length < t.length) :
    ∀ fuel w, w.length < fuel →
      ∃ vs r, zero_or_more_fuel p fuel w = (some vs, r) ∧ Runs p w vs r := by
  intro fuel
  induction fuel with
  | zero => intro w hw; omega
  | succ fuel ih =>
    intro w hw
    match hpw : p w with
    | (none, r) =>
      exact ⟨[], r, by simp [zero_or_more_fuel, hpw], Runs.stop w r hpw⟩
    | (some v, w1) =>
      have hlt : w1.length < fuel := by
        have := hp w v w1 hpw
        omega
      obtain ⟨vs, r, heq, hruns⟩ := ih w1 hlt
      exact ⟨v :: vs, r, by simp [zero_or_more_fuel, hpw, heq],
        Runs.step w v w1 vs r hpw hruns⟩

theorem zero_or_more_fuel_digits_exact :
    ∀ (ds : List Nat) (fuel : Nat) (w : Tokens), (∀ x ∈ ds, x ∈ DIGITS) →
      (∀ b w1, w = b :: w1 → b ∉ DIGITS) → ds.length < fuel →
      zero_or_more_fuel parse_digit fuel (ds ++ w) = (some (ds.map (fun b => [b])), w) := by
  intro ds
  induction ds with
  | nil =>
    intro fuel w _ hw hf
    cases fuel with
    | zero => omega
    | succ fuel =>
      cases w with
      | nil => simp [zero_or_more_fuel, parse_digit, parse_one_of_nil]
      | cons b w1 =>
        have hb : b ∉ DIGITS := hw b w1 rfl
        simp [zero_or_more_fuel, parse_digit, parse_one_of_cons_not_mem hb]
  | cons d ds ih =>
    intro fuel w hds hw hf
    cases fuel with
    | zero => omega
    | succ fuel =>
      have hd : d ∈ DIGITS := hds d (by simp)
      have hrec : zero_or_more_fuel parse_digit fuel (ds ++ w)
          = (some (ds.map (fun b => [b])), w) :=
        ih fuel w (fun x hx => hds x (by simp [hx])) hw (by simp at hf; omega)
      simp [zero_or_more_fuel, parse_digit, parse_one_of_cons_mem hd, hrec]

theorem zero_or_more_digits_exact {ds : List Nat} {w : Tokens}
    (hds : ∀ x ∈ ds, x ∈ DIGITS) (hw : ∀ b w1, w = b :: w1 → b ∉ DIGITS) :
    zero_or_more parse_digit (ds ++ w) = (some (ds.map (fun b => [b])), w) := by
  apply zero_or_more_fuel_digits_exact ds ((ds ++ w).length + 1) w hds hw
  simp
  omega

theorem zero_or_more_fuel_digits_spec :
    ∀ (fuel : Nat) (w : Tokens), w.length < fuel →
      ∃ ds r, zero_or_more_fuel parse_digit fuel w = (some (ds.map (fun b => [b])), r)
        ∧ w = ds ++ r ∧ (∀ x ∈ ds, x ∈ DIGITS) ∧ (∀ b w1, r = b :: w1 → b ∉ DIGITS) := by
  intro fuel
  induction fuel with
  | zero => intro w hw; omega
  | succ fuel ih =>
    intro w hw
    cases w with
    | nil =>
      refine ⟨[], [], ?_, rfl, by simp, by simp⟩
      simp [zero_or_more_fuel, parse_digit, parse_one_of_nil]
    | cons b w1 =>
      by_cases hb : b ∈ DIGITS
      · obtain ⟨ds, r, heq, hw1, hds, hr⟩ := ih w1 (by simp at hw; omega)
        refine ⟨b :: ds, r, ?_, by simp [hw1], ?_, hr⟩
        · simp [zero_or_more_fuel, parse_digit, parse_one_of_cons_mem hb, heq]
        · intro x hx
          rcases List.mem_cons.mp hx with rfl | hx
          · exact hb
          · exact hds x hx
      · refine ⟨[], b :: w1, ?_, rfl, by simp, ?_⟩
        · simp [zero_or_more_fuel, parse_digit, parse_one_of_cons_not_mem hb]
        · intro x w2 hx
          cases hx
          exact hb

theorem zero_or_more_digits_spec (w : Tokens) :
    ∃ ds r, zero_or_more parse_digit w = (some (ds.map (fun b => [b])), r)
      ∧ w = ds ++ r ∧ (∀ x ∈ ds, x ∈ DIGITS) ∧ (∀ b w1, r = b :: w1 → b ∉ DIGITS) :=
  zero_or_more_fuel_digits_spec (w.length + 1) w (by omega)

/-! ## Lemmas about parse_msg_len -/

theorem flatten_map_singleton (ds : List Nat) : (ds.map (fun b => [b])).flatten = ds := by
  induction ds with
  | nil => rfl
  | cons x ds ih => simp [ih]

theorem flatten_digit_digits (d : Nat) (ds : List Nat) :
    (([d]) :: ds.map (fun b => [b])).flatten = d :: ds := by
  simp [flatten_map_singleton]

theorem parse_msg_len_sound {w : Tokens} {n : Nat} {r : Tokens}
    (h : parse_msg_len w = (some n, r)) :
    ∃ d ds, w = d :: ds ++ 32 :: r ∧ d ∈ NONZERO_DIGITS ∧ (∀ x ∈ ds, x ∈ DIGITS)
      ∧ n = decimalValue (d :: ds) := by
  match h1 : parse_one_of NONZERO_DIGITS w with
  | (none, x) => simp [parse_msg_len, h1] at h
  | (some digit, rest1) =>
    obtain ⟨d, hw, hdigit, hd⟩ := parse_one_of_success h1
    obtain ⟨ds, r2, hz, hrest1, hds, hr2⟩ := zero_or_more_digits_spec rest1
    match h3 : parse_one_of [32] r2 with
    | (none, y) => simp [parse_msg_len, h1, hz, h3] at h
    | (some spc, rest3) =>
      obtain ⟨b3, hr2eq, hspc, hb3⟩ := parse_one_of_success h3
      have hb32 : b3 = 32 := by simpa using hb3
      subst hb32
      have hfin := h
      simp [parse_msg_len, h1, hz, h3] at hfin
      obtain ⟨hn, hr⟩ := hfin
      refine ⟨d, ds, ?_, hd, hds, ?_⟩
      · rw [hw, hrest1, hr2eq, hr]
        simp
      · rw [← hn, hdigit, flatten_map_singleton]
        rfl

theorem parse_msg_len_complete {d : Nat} {ds : List Nat} {r : Tokens}
    (hd : d ∈ NONZERO_DIGITS) (hds : ∀ x ∈ ds, x ∈ DIGITS) :
    parse_msg_len (d :: (ds ++ 32 :: r)) = (some (decimalValue (d :: ds)), r) := by
  have h1 : parse_one_of NONZERO_DIGITS (d :: (ds ++ 32 :: r)) = (some [d], ds ++ 32 :: r) :=
    parse_one_of_cons_mem hd _
  have h2 : zero_or_more parse_digit (ds ++ 32 :: r)
      = (some (ds.map (fun b => [b])), 32 :: r) :=
    zero_or_more_digits_exact hds (by intro b w1 hb; cases hb; decide)
  have h3 : parse_one_of [32] (32 :: r) = (some [32], r) :=
    parse_one_of_cons_mem (by simp) r
  simp [parse_msg_len, h1, h2, h3, flatten_map_singleton]

theorem parse_msg_len_fail {w : Tokens} (h : (parse_msg_len w).1 = none) :
    (parse_msg_len w).2 = w := by
  match h1 : parse_one_of NONZERO_DIGITS w with
  | (none, x) => simp [parse_msg_len, h1]
  | (some digit, rest1) =>
    match h2 : zero_or_more parse_digit rest1 with
    | (none, x) => simp [parse_msg_len, h1, h2]
    | (some digits, rest2) =>
      match h3 : parse_one_of [32] rest2 with
      | (none, x) => simp [parse_msg_len, h1, h2, h3]
      | (some spc, rest3) => simp [parse_msg_len, h1, h2, h3] at h

theorem parse_msg_len_fail_append {w c : Tokens} (hnl : 10 ∈ w)
    (h : parse_msg_len w = (none, w)) :
    parse_msg_len (w ++ c) = (none, w ++ c) := by
  cases w with
  | nil => simp at hnl
  | cons b w1 =>
    by_cases hb : b ∈ NONZERO_DIGITS
    · obtain ⟨ds, r, hz, hw1, hds, hr⟩ := zero_or_more_digits_spec w1
      subst hw1
      cases r with
      | nil =>
        exfalso
        rcases List.mem_cons.mp hnl with h10 | h10
        · have := mem_NONZERO_DIGITS_bounds hb
          omega
        · have hmem : (10 : Nat) ∈ ds := by simpa using h10
          have := mem_DIGITS_bounds (hds 10 hmem)
          omega
      | cons x r1 =>
        have hx : x ∉ DIGITS := hr x r1 rfl
        have hx32 : x ≠ 32 := by
          intro hx32
          subst hx32
          rw [parse_msg_len_complete hb hds] at h
          simp at h
        have hlist : (b :: (ds ++ x :: r1)) ++ c = b :: (ds ++ (x :: (r1 ++ c))) := by simp
        rw [hlist]
        have h1 : parse_one_of NONZERO_DIGITS (b :: (ds ++ (x :: (r1 ++ c))))
            = (some [b], ds ++ (x :: (r1 ++ c))) := parse_one_of_cons_mem hb _
        have h2 : zero_or_more parse_digit (ds ++ (x :: (r1 ++ c)))
            = (some (ds.map (fun y => [y])), x :: (r1 ++ c)) :=
          zero_or_more_digits_exact hds (by intro y w2 hy; cases hy; exact hx)
        have h3 : parse_one_of [32] (x :: (r1 ++ c)) = (none, x :: (r1 ++ c)) :=
          parse_one_of_cons_not_mem (by simp [hx32]) _
        simp [parse_msg_len, h1, h2, h3]
    · have h1 : parse_one_of NONZERO_DIGITS (b :: (w1 ++ c)) = (none, b :: (w1 ++ c)) :=
        parse_one_of_cons_not_mem hb _
      simp [parse_msg_len, h1]

/-! ## Lemmas about parse_non_transparent_frame -/

theorem parse_non_transparent_frame_sound :
    ∀ {w msg r : Tokens}, parse_non_transparent_frame w = (some msg, r) →
      w = msg ++ 10 :: r ∧ 10 ∉ msg := by
  intro w
  induction w with
  | nil => intro msg r h; simp [parse_non_transparent_frame] at h
  | cons b w1 ih =>
    intro msg r h
    by_cases hb : b = 10
    · subst hb
      simp [parse_non_transparent_frame] at h
      obtain ⟨rfl, rfl⟩ := h
      simp
    · match hw1 : parse_non_transparent_frame w1 with
      | (some m1, r1) =>
        simp [parse_non_transparent_frame, hb, hw1] at h
        obtain ⟨rfl, rfl⟩ := h
        obtain ⟨hw, hm⟩ := ih hw1
        constructor
        · rw [hw]; rfl
        · intro hmem
          rcases List.mem_cons.mp hmem with h10 | h10
          · exact hb h10.symm
          · exact hm h10
      | (none, r1) => simp [parse_non_transparent_frame, hb, hw1] at h

theorem parse_non_transparent_frame_complete :
    ∀ {msg : List Nat} (r : Tokens), 10 ∉ msg →
      parse_non_transparent_frame (msg ++ 10 :: r) = (some msg, r) := by
  intro msg
  induction msg with
  | nil => intro r _; simp [parse_non_transparent_frame]
  | cons b m1 ih =>
    intro r hm
    have hb : ¬ b = 10 := by
      intro hb
      exact hm (by simp [hb])
    have hrec := ih r (fun hx => hm (by simp [hx]))
    simp [parse_non_transparent_frame, hb, hrec]

theorem parse_non_transparent_frame_fail :
    ∀ {w : Tokens}, (parse_non_transparent_frame w).1 = none →
      (parse_non_transparent_frame w).2 = w := by
  intro w
  induction w with
  | nil => intro h; rfl
  | cons b w1 ih =>
    intro h
    by_cases hb : b = 10
    · subst hb
      simp [parse_non_transparent_frame] at h
    · match hw1 : parse_non_transparent_frame w1 with
      | (some m1, r1) => simp [parse_non_transparent_frame, hb, hw1] at h
      | (none, r1) => simp [parse_non_transparent_frame, hb, hw1]

/-! ## Lemmas about parse_syslog_message -/

theorem parse_syslog_message_fallback {w x : Tokens}
    (h : parse_msg_len w = (none, x)) :
    parse_syslog_message w = parse_non_transparent_frame w := by
  simp [parse_syslog_message, h]

theorem parse_syslog_message_octet_ok {w r : Tokens} {n : Nat}
    (h : parse_msg_len w = (some n, r)) (hn : n ≤ r.length) :
    parse_syslog_message w = (some (r.take n), r.drop n) := by
  simp [parse_syslog_message, h, parse_bytes_of_le hn]

theorem parse_syslog_message_octet_short {w r : Tokens} {n : Nat}
    (h : parse_msg_len w = (some n, r)) (hn : r.length < n) :
    parse_syslog_message w = (none, w) := by
  simp [parse_syslog_message, h, parse_bytes_of_gt hn]

theorem parse_syslog_message_fail {w : Tokens}
    (h : (parse_syslog_message w).1 = none) : (parse_syslog_message w).2 = w := by
  match hml : parse_msg_len w with
  | (none, x) =>
    rw [parse_syslog_message_fallback hml] at h ⊢
    exact parse_non_transparent_frame_fail h
  | (some n, r) =>
    rcases le_or_lt n r.length with hle | hlt
    · rw [parse_syslog_message_octet_ok hml hle] at h
      simp at h
    · rw [parse_syslog_message_octet_short hml hlt]

theorem parse_syslog_message_success_shape {w msg rest : Tokens}
    (h : parse_syslog_message w = (some msg, rest)) :
    (∃ n r, parse_msg_len w = (some n, r) ∧ n ≤ r.length ∧ msg = r.take n ∧ rest = r.drop n)
    ∨ (parse_msg_len w = (none, w) ∧ parse_non_transparent_frame w = (some msg, rest)) := by
  match hml : parse_msg_len w with
  | (some n, r) =>
    rcases le_or_lt n r.length with hle | hlt
    · left
      rw [parse_syslog_message_octet_ok hml hle] at h
      simp at h
      exact ⟨n, r, rfl, hle, h.1.symm, h.2.symm⟩

    · rw [parse_syslog_message_octet_short hml hlt] at h
      simp at h
  | (none, x) =>
    right
    have hx : x = w := by
      have hfail := @parse_msg_len_fail w (by rw [hml])
      rw [hml] at hfail
      exact hfail
    constructor
    · rw [hx]
    · rw [parse_syslog_message_fallback hml] at h
      exact h

theorem parse_syslog_message_consumes {w msg rest : Tokens}
    (h : parse_syslog_message w = (some msg, rest)) : rest.length < w.length := by
  rcases parse_syslog_message_success_shape h with ⟨n, r, hml, hle, hmsg, hrest⟩ | ⟨hml, hf⟩
  · obtain ⟨d, ds, hw, -, -, -⟩ := parse_msg_len_sound hml
    subst hrest
    rw [hw]
    simp
    omega
  · obtain ⟨hw, -⟩ := parse_non_transparent_frame_sound hf
    rw [hw]
    simp
    omega

theorem parse_syslog_message_append {w msg rest : Tokens} (c : Tokens)
    (h : parse_syslog_message w = (some msg, rest)) :
    parse_syslog_message (w ++ c) = (some msg, rest ++ c) := by
  rcases parse_syslog_message_success_shape h with ⟨n, r, hml, hle, hmsg, hrest⟩ | ⟨hml, hf⟩
  · obtain ⟨d, ds, hw, hd, hds, hn⟩ := parse_msg_len_sound hml
    have hwc : w ++ c = d :: (ds ++ 32 :: (r ++ c)) := by
      rw [hw]
      simp
    rw [hwc]
    have hml2 : parse_msg_len (d :: (ds ++ 32 :: (r ++ c))) = (some n, r ++ c) := by
      rw [parse_msg_len_complete hd hds, ← hn]
    have hle2 : n ≤ (r ++ c).length := by
      simp
      omega
    rw [parse_syslog_message_octet_ok hml2 hle2]
    subst hmsg hrest
    rw [List.take_append_of_le_length hle, List.drop_append_of_le_length hle]
  · obtain ⟨hw, hnm⟩ := parse_non_transparent_frame_sound hf
    have h10 : (10 : Nat) ∈ w := by
      rw [hw]
      simp
    have hml2 : parse_msg_len (w ++ c) = (none, w ++ c) :=
      parse_msg_len_fail_append h10 hml
    rw [parse_syslog_message_fallback hml2]
    have hwc : w ++ c = msg ++ 10 :: (rest ++ c) := by
      rw [hw]
      simp
    rw [hwc, parse_non_transparent_frame_complete _ hnm]

/-! ## Lemmas about the reassembly loop -/

theorem parse_syslog_message_nil : parse_syslog_message [] = (none, []) := by decide

theorem drainFuel_none {fuel : Nat} {w x : Tokens}
    (hp : parse_syslog_message w = (none, x)) :
    drainFuel (fuel + 1) w = ([], w) := by
  rw [drainFuel, hp]

theorem drainFuel_some {fuel : Nat} {w msg rest : Tokens}
    (hp : parse_syslog_message w = (some msg, rest)) :
    drainFuel (fuel + 1) w = (msg :: (drainFuel fuel rest).1, (drainFuel fuel rest).2) := by
  rw [drainFuel, hp]

theorem drainFuel_step :
    ∀ (fuel : Nat) (w : Tokens), w.length ≤ fuel →
      drainFuel (fuel + 1) w = drainFuel fuel w := by
  intro fuel
  induction fuel with
  | zero =>
    intro w hw
    have hnil : w = [] := List.length_eq_zero.mp (Nat.le_zero.mp hw)
    subst hnil
    rw [drainFuel_none parse_syslog_message_nil]
    rfl
  | succ fuel ih =>
    intro w hw
    match hp : parse_syslog_message w with
    | (none, x) =>
      rw [drainFuel_none hp, drainFuel_none hp]
    | (some m, r) =>
      have hr : r.length ≤ fuel := by
        have := parse_syslog_message_consumes hp
        omega
      rw [@drainFuel_some (fuel + 1) w m r hp, @drainFuel_some fuel w m r hp,
        ih r hr]

theorem drainFuel_eq_drain :
    ∀ (fuel : Nat) (w : Tokens), w.length ≤ fuel → drainFuel fuel w = drain w := by
  intro fuel
  induction fuel with
  | zero =>
    intro w hw
    have hnil : w = [] := List.length_eq_zero.mp (Nat.le_zero.mp hw)
    subst hnil
    rfl
  | succ fuel ih =>
    intro w hw
    rcases Nat.lt_or_ge fuel w.length with hlt | hge
    · have hlen : w.length = fuel + 1 := by omega
      rw [drain, hlen]
    · rw [drainFuel_step fuel w hge, ih w hge]

theorem drain_fail {w x : Tokens} (h : parse_syslog_message w = (none, x)) :
    drain w = ([], w) := by
  cases hw : w.length with
  | zero =>
    have hnil : w = [] := List.length_eq_zero.mp hw
    subst hnil
    rfl
  | succ k =>
    rw [drain, hw]
    rw [drainFuel_none h]

theorem drain_succ {w msg rest : Tokens}
    (h : parse_syslog_message w = (some msg, rest)) :
    drain w = (msg :: (drain rest).1, (drain rest).2) := by
  have hlt := parse_syslog_message_consumes h
  cases hw : w.length with
  | zero => omega
  | succ k =>
    rw [drain, hw]
    have hr : rest.length ≤ k := by omega
    rw [drainFuel_some h, drainFuel_eq_drain k rest hr]

theorem drain_leftover (w : Tokens) :
    parse_syslog_message (drain w).2 = (none, (drain w).2) := by
  match hp : parse_syslog_message w with
  | (none, x) =>
    have hx : x = w := by
      have hfail := @parse_syslog_message_fail w (by rw [hp])
      rw [hp] at hfail
      exact hfail
    subst hx
    rw [drain_fail hp]
    exact hp
  | (some m, r) =>
    rw [drain_succ hp]
    exact drain_leftover r
termination_by w.length
decreasing_by exact parse_syslog_message_consumes hp

theorem drain_append (b c : Tokens) :
    drain (b ++ c) = ((drain b).1 ++ (drain ((drain b).2 ++ c)).1,
      (drain ((drain b).2 ++ c)).2) := by
  match hp : parse_syslog_message b with
  | (none, x) =>
    rw [drain_fail hp]
    simp
  | (some m, r) =>
    have h2 := parse_syslog_message_append c hp
    rw [drain_succ hp, drain_succ h2, drain_append r c]
    simp
termination_by b.length
decreasing_by exact parse_syslog_message_consumes hp

theorem ingestAll_drain :
    ∀ (chunks : List Tokens) (ms : List (List Nat)) (b : Tokens),
      parse_syslog_message b = (none, b) →
      ingestAll (ms, b) chunks
        = (ms ++ (drain (b ++ chunks.flatten)).1, (drain (b ++ chunks.flatten)).2) := by
  intro chunks
  induction chunks with
  | nil =>
    intro ms b hb
    simp [ingestAll, drain_fail hb]
  | cons c rest ih =>
    intro ms b hb
    have hstep : ingestAll (ms, b) (c :: rest)
        = ingestAll (ms ++ (drain (b ++ c)).1, (drain (b ++ c)).2) rest := by
      simp [ingestAll, ingest]
    have hflat : b ++ (c :: rest).flatten = (b ++ c) ++ rest.flatten := by simp
    rw [hstep, ih _ _ (drain_leftover (b ++ c)), hflat,
      drain_append (b ++ c) rest.flatten]
    simp

/-! ## Decimal rendering -/

theorem foldl_decimal (ds : List Nat) :
    ∀ a : Nat, ds.foldl (fun acc d => 10 * acc + (d - 48)) a
      = a * 10 ^ ds.length + Nat.ofDigits 10 ((ds.map (fun d => d - 48)).reverse) := by
  induction ds with
  | nil =>
    intro a
    simp [Nat.ofDigits]
  | cons d ds ih =>
    intro a
    simp only [List.foldl_cons, List.map_cons, List.reverse_cons, List.length_cons]
    rw [ih (10 * a + (d - 48)), Nat.ofDigits_append, Nat.ofDigits_singleton]
    simp [pow_succ]
    ring

theorem decimalValue_eq_ofDigits (ds : List Nat) :
    decimalValue ds = Nat.ofDigits 10 ((ds.map (fun d => d - 48)).reverse) := by
  rw [decimalValue, foldl_decimal]
  simp

theorem decDigitsAux_eq_digits :
    ∀ (fuel n : Nat), n ≤ fuel → decDigitsAux fuel n = Nat.digits 10 n := by
  intro fuel
  induction fuel with
  | zero =>
    intro n hn
    have hn0 : n = 0 := by omega
    subst hn0
    simp [decDigitsAux]
  | succ fuel ih =>
    intro n hn
    by_cases h0 : n = 0
    · subst h0
      simp [decDigitsAux]
    · have hdiv : n / 10 < n := Nat.div_lt_self (Nat.pos_of_ne_zero h0) (by norm_num)
      rw [decDigitsAux]
      simp only [h0, if_false]
      rw [ih (n / 10) (by omega),
        Nat.digits_def' (by norm_num : (1 : ℕ) < 10) (Nat.pos_of_ne_zero h0)]

theorem asciiDecimal_decimalValue {d : Nat} {ds : List Nat}
    (hd : d ∈ NONZERO_DIGITS) (hds : ∀ x ∈ ds, x ∈ DIGITS) :
    asciiDecimal (decimalValue (d :: ds)) = d :: ds := by
  have hd49 := mem_NONZERO_DIGITS_bounds hd
  set L : List Nat := ((d :: ds).map (fun x => x - 48)).reverse with hL
  have hofd : decimalValue (d :: ds) = Nat.ofDigits 10 L := decimalValue_eq_ofDigits _
  have hLshape : L = ((ds.map (fun x => x - 48)).reverse) ++ [d - 48] := by
    rw [hL]
    simp
  have hlt : ∀ l ∈ L, l < 10 := by
    intro l hl
    rw [hL] at hl
    simp only [List.mem_reverse, List.mem_map] at hl
    obtain ⟨x, hx, rfl⟩ := hl
    rcases List.mem_cons.mp hx with rfl | hx1
    · omega
    · have := mem_DIGITS_bounds (hds x hx1)
      omega
  have hlast : ∀ (h : L ≠ []), L.getLast h ≠ 0 := by
    intro h
    have h1 : L.getLast? = some (d - 48) := by
      rw [hLshape]
      simp
    have h2 := List.getLast?_eq_getLast L h
    rw [h1] at h2
    have h3 : L.getLast h = d - 48 := Option.some.inj h2.symm
    rw [h3]
    omega
  have hdig : Nat.digits 10 (Nat.ofDigits 10 L) = L :=
    Nat.digits_ofDigits 10 (by norm_num) L hlt hlast
  rw [asciiDecimal, decDigitsAux_eq_digits _ _ (le_refl _), hofd, hdig, hL,
    List.map_reverse, List.reverse_reverse, List.map_map]
  have hcongr : ∀ x ∈ d :: ds, ((fun y => y + 48) ∘ (fun y => y - 48)) x = x := by
    intro x hx
    have hx48 : 48 ≤ x := by
      rcases List.mem_cons.mp hx with rfl | hx1
      · omega
      · exact (mem_DIGITS_bounds (hds x hx1)).1
    simp only [Function.comp_apply]
    omega
  rw [List.map_congr_left hcongr]
  simp

/-! ## Claim theorems -/

/-- C1: Byte conservation per decode: when `parse_syslog_message` succeeds on
a window `w` returning `(msg, rest)`, either `w` is the ASCII decimal
rendering of `msg`'s length, one space byte, `msg`, and `rest`
(octet-counting case), or `w` is `msg`, one newline byte, and `rest`, with no
newline byte inside `msg` (non-transparent case); in both cases no byte of
`w` is lost, duplicated, or reordered. -/
theorem byte_conservation (w msg rest : Tokens)
    (h : parse_syslog_message w = (some msg, rest)) :
    w = asciiDecimal msg.length ++ 32 :: (msg ++ rest)
    ∨ (w = msg ++ 10 :: rest ∧ 10 ∉ msg) := by
  rcases parse_syslog_message_success_shape h with ⟨n, r, hml, hle, hmsg, hrest⟩ | ⟨hml, hf⟩
  · left
    obtain ⟨d, ds, hw, hd, hds, hn⟩ := parse_msg_len_sound hml
    have hlen : msg.length = n := by
      rw [hmsg, List.length_take]
      omega
    have hrender : asciiDecimal msg.length = d :: ds := by
      rw [hlen, hn, asciiDecimal_decimalValue hd hds]
    have hr : r = msg ++ rest := by
      rw [hmsg, hrest, List.take_append_drop]
    rw [hw, hrender, hr]
  · right
    exact parse_non_transparent_frame_sound hf

/-- Witness for C1 at the concrete window `b"1 x"`. -/
theorem byte_conservation_witness :
    [49, 32, 120] = asciiDecimal ([120] : Tokens).length ++ 32 :: ([120] ++ ([] : Tokens))
    ∨ ([49, 32, 120] = [120] ++ 10 :: ([] : Tokens) ∧ (10 : Nat) ∉ ([120] : Tokens)) :=
  byte_conservation [49, 32, 120] [120] [] (by decide)

/-- C2: Octet-counting branch of the dispatcher: when `parse_msg_len` matches
on `w` with value `n` and remainder `r`, `parse_syslog_message w` returns
exactly the first `n` bytes of `r` and the rest of `r` as leftover when at
least `n` bytes are available (an embedded newline is part of the message),
and otherwise fails returning the entire original window `w`, without
falling back to newline framing. -/
theorem octet_counting_branch (w : Tokens) (n : Nat) (r : Tokens)
    (h : parse_msg_len w = (some n, r)) :
    (n ≤ r.length → parse_syslog_message w = (some (r.take n), r.drop n))
    ∧ (r.length < n → parse_syslog_message w = (none, w)) :=
  ⟨fun hle => parse_syslog_message_octet_ok h hle,
   fun hlt => parse_syslog_message_octet_short h hlt⟩

/-- Witness for C2 at the concrete window `b"2 abc"`. -/
theorem octet_counting_branch_witness :
    parse_syslog_message [50, 32, 97, 98, 99]
      = (some (([97, 98, 99] : Tokens).take 2), ([97, 98, 99] : Tokens).drop 2) :=
  (octet_counting_branch [50, 32, 97, 98, 99] 2 [97, 98, 99] (by decide)).1 (by decide)

/-- C3: Chunking invariance: feeding any split of a byte sequence chunk by
chunk to `ingest` under one source key, starting from an empty pending
buffer, yields the same ordered dispatched messages and final leftover as
feeding the whole sequence in a single call. -/
theorem chunking_invariance (chunks : List Tokens) :
    ingestAll ([], []) chunks = ingest [] chunks.flatten := by
  rw [ingestAll_drain chunks [] [] parse_syslog_message_nil, ingest]
  simp

/-- C4: Length-prefix grammar: `parse_msg_len` succeeds exactly on windows
that start with one digit in [1-9], then zero or more digits in [0-9], then
exactly one space byte; on success it returns the decimal value of the digit
run and the window after the space, and on failure it returns the original
window. -/
theorem length_prefix_grammar (w : Tokens) :
    (∀ n r, parse_msg_len w = (some n, r) →
      ∃ d ds, w = d :: (ds ++ 32 :: r) ∧ d ∈ NONZERO_DIGITS ∧ (∀ x ∈ ds, x ∈ DIGITS)
        ∧ n = decimalValue (d :: ds))
    ∧ (∀ d ds r, w = d :: (ds ++ 32 :: r) → d ∈ NONZERO_DIGITS → (∀ x ∈ ds, x ∈ DIGITS) →
      parse_msg_len w = (some (decimalValue (d :: ds)), r))
    ∧ ((parse_msg_len w).1 = none → (parse_msg_len w).2 = w) := by
  refine ⟨?_, ?_, parse_msg_len_fail⟩
  · intro n r h
    obtain ⟨d, ds, hw, hd, hds, hn⟩ := parse_msg_len_sound h
    refine ⟨d, ds, ?_, hd, hds, hn⟩
    rw [hw]
    simp
  · intro d ds r hw hd hds
    subst hw
    exact parse_msg_len_complete hd hds

/-- Witness for C4 at the concrete window `b"12 x"`. -/
theorem length_prefix_grammar_witness :
    parse_msg_len [49, 50, 32, 120] = (some (decimalValue (49 :: [50])), [120]) :=
  (length_prefix_grammar [49, 50, 32, 120]).2.1 49 [50] [120]
    (by decide) (by decide) (by decide)

/-- C5: Full backtracking on failure: every parser in the core that returns
the no-match marker leaves the window component of its result exactly equal
to the input window — no partial consumption leaks past a failed parse. -/
theorem full_backtracking (len : Nat) (expected : List Nat) (w : Tokens) :
    ((parse_bytes len w).1 = none → (parse_bytes len w).2 = w)
    ∧ ((parse_one_of expected w).1 = none → (parse_one_of expected w).2 = w)
    ∧ ((parse_digit w).1 = none → (parse_digit w).2 = w)
    ∧ ((parse_msg_len w).1 = none → (parse_msg_len w).2 = w)
    ∧ ((parse_non_transparent_frame w).1 = none → (parse_non_transparent_frame w).2 = w)
    ∧ ((parse_syslog_message w).1 = none → (parse_syslog_message w).2 = w) :=
  ⟨parse_bytes_fail, parse_one_of_fail, fun h => parse_one_of_fail h,
   parse_msg_len_fail, parse_non_transparent_frame_fail, parse_syslog_message_fail⟩

/-- Witness for C5 at the window `b"2"`, on which the dispatcher fails. -/
theorem full_backtracking_witness :
    (parse_syslog_message [50]).2 = [50] :=
  (full_backtracking 1 [] [50]).2.2.2.2.2 (by decide)

/-- C6 (counterexample): feeding the single chunk
`b"45 May 26 13:45:01 Klapprechner CRON[8046]: octet message\n"` to `ingest`
on a fresh source key does not dispatch exactly one message: the declared
length 45 covers only part of the payload and the remaining `b"t message\n"`
is decoded as a second, newline-framed message. -/
theorem single_chunk_octet45_not_one_message :
    (ingest [] octet45).1.length = 2 ∧ ¬ (ingest [] octet45).1.length = 1 := by
  decide

/-- C6 (amended): feeding that single chunk dispatches exactly two messages —
the 45-byte octet-counted payload and the following newline-framed
`b"t message"` — and leaves an empty leftover buffer. -/
theorem single_chunk_octet45_two_messages :
    ingest [] octet45
      = ([strBytes "May 26 13:45:01 Klapprechner CRON[8046]: octe",
          strBytes "t message"], []) := by
  decide

/-- C7: Totality: every parser in the core returns a normal value on every
input window (in this embedding all functions are total by construction),
and the `zero_or_more` loop over `parse_digit` always terminates with a
result because each successful application of `parse_digit` strictly
consumes at least one byte. -/
theorem parsing_core_total (len : Nat) (expected : List Nat) (w : Tokens) :
    (∃ res, parse_bytes len w = res)
    ∧ (∃ res, parse_one_of expected w = res)
    ∧ (∃ res, parse_digit w = res)
    ∧ (∃ res, parse_msg_len w = res)
    ∧ (∃ res, parse_non_transparent_frame w = res)
    ∧ (∃ res, parse_syslog_message w = res)
    ∧ (∀ v r, parse_digit w = (some v, r) → r.length < w.length)
    ∧ (zero_or_more parse_digit w).1 ≠ none := by
  refine ⟨⟨_, rfl⟩, ⟨_, rfl⟩, ⟨_, rfl⟩, ⟨_, rfl⟩, ⟨_, rfl⟩, ⟨_, rfl⟩,
    fun v r h => parse_digit_consumes w v r h, ?_⟩
  obtain ⟨ds, r, hz, -, -, -⟩ := zero_or_more_digits_spec w
  rw [hz]
  simp

/-- Witness for C7: `parse_digit` strictly consumes on the window `b"1"`. -/
theorem parsing_core_total_witness :
    ([] : Tokens).length < ([49] : Tokens).length :=
  (parsing_core_total 0 [] [49]).2.2.2.2.2.2.1 [49] [] (by decide)

/-- C8: `zero_or_more` never returns the no-match marker: for every parser
`p` that strictly consumes on success (as every parser used by the source
does, which is what makes the Python loop terminate), `zero_or_more p w`
returns the list of the successive successes of `p` in order together with
the window remaining after the last success; hence the `Failure` test on its
result inside `parse_msg_len` is unreachable. -/
theorem zero_or_more_never_fails {α : Type} (p : Tokens → ParseResult α)
    (hp : ∀ t v r, p t = (some v, r) → r.length < t.length) (w : Tokens) :
    ∃ vs r, zero_or_more p w = (some vs, r) ∧ Runs p w vs r :=
  zero_or_more_fuel_of_consuming p hp (w.length + 1) w (by omega)

/-- Witness for C8: `zero_or_more` over `parse_digit` on the window `b"12 "`. -/
theorem zero_or_more_never_fails_witness :
    ∃ vs r, zero_or_more parse_digit [49, 50, 32] = (some vs, r)
      ∧ Runs parse_digit [49, 50, 32] vs r :=
  zero_or_more_never_fails parse_digit parse_digit_consumes [49, 50, 32]

/-- C9: Scoped lock discipline: a `with ECLock(...)` block acquires the lock
on entry and, on every exit path — normal completion or a propagating
exception — releases it exactly once without suppressing the exception;
`ECLock.__exit__` always releases and always returns `False`. -/
theorem eclock_scoped_discipline {ε α : Type} (body : Except ε α) :
    (eclock_with body).1 = [LockEvent.acquire, LockEvent.release]
    ∧ (eclock_with body).2 = Except.map some body
    ∧ (∀ info : Option ε, eclock_exit info = ([LockEvent.release], false)) := by
  refine ⟨?_, ?_, fun info => rfl⟩ <;> cases body <;> rfl

/-- C10: Empty messages are matchable and distinct from no-match: on every
window whose first byte is a newline, `parse_syslog_message` succeeds,
returning the empty byte string and the window after the newline, and this
matched-empty result differs from the no-match sentinel. -/
theorem empty_frame_success (w : Tokens) :
    parse_syslog_message (10 :: w) = (some [], w)
    ∧ (parse_syslog_message (10 :: w)).1 ≠ none := by
  have h1 : parse_one_of NONZERO_DIGITS (10 :: w) = (none, 10 :: w) :=
    parse_one_of_cons_not_mem (by decide) w
  have hml : parse_msg_len (10 :: w) = (none, 10 :: w) := by
    simp [parse_msg_len, h1]
  have hr : parse_syslog_message (10 :: w) = (some [], w) := by
    rw [parse_syslog_message_fallback hml]
    simp [parse_non_transparent_frame]
  refine ⟨hr, ?_⟩
  rw [hr]
  simp

end Checkmk
